import Mathlib

/-!
Verification of the omg-js client library (transaction codec, UTXO position
codec, exit-priority codec, exit queue, exit timing, handle memoization, and
UTXO merging) against its natural-language specification.

Bytes are modelled as `List Nat` (each entry a byte value), integers as `Nat`
(the JavaScript code uses BN.js arbitrary-precision integers at the points
modelled here, except where noted).
-/

namespace OmgJs

/-! ### Positional digit strings

The codec renders integers as minimal big-endian digit strings (base 256 for
the wire format, base 2 for the exit-priority bit layout, base 10 for decimal
amount strings).  `natToDigits` is the minimal big-endian rendering (zero
renders as the empty string), `digitsToNat` reads a digit string back.  The
fuel-based definition keeps the function structurally recursive so that the
kernel can evaluate it on concrete inputs. -/

/-- Fuel-based minimal big-endian digit rendering; `fuel` bounds the recursion
depth and is always called with `fuel ≥ n`. -/
def natToDigitsAux (B : Nat) : Nat → Nat → List Nat
  | 0, _ => []
  | fuel + 1, n => if n = 0 then [] else natToDigitsAux B fuel (n / B) ++ [n % B]

/-- Minimal big-endian base-`B` digit string of `n`; zero renders as `[]`. -/
def natToDigits (B n : Nat) : List Nat :=
  natToDigitsAux B n n

/-- Reads a big-endian base-`B` digit string back into a number. -/
def digitsToNat (B : Nat) (ds : List Nat) : Nat :=
  ds.foldl (fun a d => B * a + d) 0

/-- Minimal big-endian byte string of `n` (RLP integer serialization: no
leading zero byte, zero is the empty string). -/
def natToBytes (n : Nat) : List Nat :=
  natToDigits 256 n

/-- Reads a big-endian byte string back into a number. -/
def bytesToNat (bs : List Nat) : Nat :=
  digitsToNat 256 bs

/-! ### The length-prefixed recursive byte format (RLP)

The transaction codec serializes a transaction "as a nested list using
length-prefixed encoding: a byte string shorter than 56 bytes is emitted as
one length byte followed by its content; longer strings get a
length-of-length prefix; lists are encoded the same way over their
serialized items" (spec §4.1).  A single byte below 0x80 is its own
encoding, as the repository's encode fixtures show (the transaction type `1`
appears as the lone byte `0x01`). -/

/-- RLP encoding of a byte string. -/
def rlpStr (bs : List Nat) : List Nat :=
  if bs.length = 1 ∧ bs.headD 0 < 128 then bs
  else if bs.length ≤ 55 then (128 + bs.length) :: bs
  else (183 + (natToBytes bs.length).length) :: (natToBytes bs.length ++ bs)

/-- RLP encoding of a list given the concatenation of its items' encodings. -/
def rlpList (payload : List Nat) : List Nat :=
  if payload.length ≤ 55 then (192 + payload.length) :: payload
  else (247 + (natToBytes payload.length).length) :: (natToBytes payload.length ++ payload)

/-- Parses one RLP byte-string item from the front, returning its content and
the remaining bytes. -/
def parseStr : List Nat → Option (List Nat × List Nat)
  | [] => none
  | b :: rest =>
    if b < 128 then some ([b], rest)
    else if b ≤ 183 then
      if b - 128 ≤ rest.length then some (rest.take (b - 128), rest.drop (b - 128)) else none
    else if b ≤ 191 then
      if b - 183 ≤ rest.length then
        if bytesToNat (rest.take (b - 183)) ≤ (rest.drop (b - 183)).length then
          some ((rest.drop (b - 183)).take (bytesToNat (rest.take (b - 183))),
                (rest.drop (b - 183)).drop (bytesToNat (rest.take (b - 183))))
        else none
      else none
    else none

/-- Parses one RLP list header from the front, returning the list payload and
the remaining bytes. -/
def parseList : List Nat → Option (List Nat × List Nat)
  | [] => none
  | b :: rest =>
    if b < 192 then none
    else if b ≤ 247 then
      if b - 192 ≤ rest.length then some (rest.take (b - 192), rest.drop (b - 192)) else none
    else
      if b - 247 ≤ rest.length then
        if bytesToNat (rest.take (b - 247)) ≤ (rest.drop (b - 247)).length then
          some ((rest.drop (b - 247)).take (bytesToNat (rest.take (b - 247))),
                (rest.drop (b - 247)).drop (bytesToNat (rest.take (b - 247))))
        else none
      else none

/-! ### Transaction data model

A transaction has a type, 0–4 inputs, 0–4 outputs, auxiliary `txData` and a
`metadata` byte string (spec §3).  Amounts are arbitrary-precision unsigned
integers. -/

structure UtxoInput where
  blknum : Nat
  txindex : Nat
  oindex : Nat
deriving DecidableEq, Repr

structure TxOutput where
  outputType : Nat
  outputGuard : List Nat
  currency : List Nat
  amount : Nat
deriving DecidableEq, Repr

structure Transaction where
  txType : Nat
  inputs : List UtxoInput
  outputs : List TxOutput
  txData : Nat
  metadata : List Nat
deriving DecidableEq, Repr

/-- The native (ETH) currency identifier: 20 zero bytes. -/
def ethCurrency : List Nat := List.replicate 20 0

/-- The explicit null metadata used by `encodeDeposit`: 32 zero bytes. -/
def nullMetadata : List Nat := List.replicate 32 0

/-- Modelled from the spec (§3, §4.2): `transaction.encodeUtxoPos` is not under
src/; the packing formula `blknum*1_000_000_000 + txindex*10_000 + oindex` is
given by the spec and corroborated by `getDepositExitData` in
rootchain.js, which computes `blknum * 1000000000`. -/
def encodeUtxoPos (u : UtxoInput) : Nat :=
  u.blknum * 1000000000 + u.txindex * 10000 + u.oindex

/-- Modelled from the spec (§4.2): `transaction.decodeUtxoPos` is not under
src/; the spec prescribes decoding "via integer division/modulo by 10_000
then 1_000_000_000". -/
def decodeUtxoPos (pos : Nat) : UtxoInput :=
  { blknum := pos / 1000000000, txindex := pos % 1000000000 / 10000, oindex := pos % 10000 }

/-- Left-pads a byte string with zero bytes to 32 bytes (input positions are
emitted as fixed 32-byte strings, as the encode fixtures show). -/
def padTo32 (bs : List Nat) : List Nat :=
  List.replicate (32 - bs.length) 0 ++ bs

/-- Modelled from the spec (§4.1): serialization of one input as the 32-byte
big-endian UTXO position. -/
def encodeInput (i : UtxoInput) : List Nat :=
  rlpStr (padTo32 (natToBytes (encodeUtxoPos i)))

def encodeInputs : List UtxoInput → List Nat
  | [] => []
  | i :: is => encodeInput i ++ encodeInputs is

/-- Modelled from the spec (§4.1): serialization of one output as the nested
list `[outputType, [outputGuard, currency, amount]]`, with the address and
currency as fixed 20-byte strings and the amount as a minimal big-endian
integer.  The nesting matches the repository's encode fixtures. -/
def encodeOutput (o : TxOutput) : List Nat :=
  rlpList (rlpStr (natToBytes o.outputType) ++
    rlpList (rlpStr o.outputGuard ++ (rlpStr o.currency ++ rlpStr (natToBytes o.amount))))

def encodeOutputs : List TxOutput → List Nat
  | [] => []
  | o :: os => encodeOutput o ++ encodeOutputs os

/-- Modelled from the spec (§4.1): `transaction.encode` is not under src/ (only
its test file is); the transaction is serialized as the list
`[txType, inputs, outputs, txData, metadata]` in the length-prefixed
recursive format.  Validated below against every encode fixture asserted by
the repository's own test file. -/
def encodeTx (tx : Transaction) : List Nat :=
  rlpList (rlpStr (natToBytes tx.txType) ++
    (rlpList (encodeInputs tx.inputs) ++
      (rlpList (encodeOutputs tx.outputs) ++
        (rlpStr (natToBytes tx.txData) ++ rlpStr tx.metadata))))

/-- Modelled from the spec (§4.1): `transaction.encodeDeposit` builds and
encodes a single-input-less transaction with one output owned by the
depositor, with the explicit 32-zero-byte metadata (as the deposit fixtures
show). -/
def encodeDeposit (owner : List Nat) (amount : Nat) (currency : List Nat) : List Nat :=
  encodeTx { txType := 1, inputs := [],
             outputs := [{ outputType := 1, outputGuard := owner, currency := currency, amount := amount }],
             txData := 0, metadata := nullMetadata }

/-! ### Transaction decoding

`transaction.decodeTxBytes` is not under src/ (only its test file is), so the
decoder is modelled from the spec (§4.1): "exact inverse; decoded `amount` is
returned as a decimal string (not a native number)".  One point is pinned by
the repository's own round-trip test instead of the spec: the test at
validators/index.js (lines 184–209) asserts that the metadata of a
transaction encoded without metadata decodes to the 20-byte zero string
`0x0000000000000000000000000000000000000000`, so empty parsed byte strings
decode to the 20-byte zero value. -/

/-- Decoded rendering of a parsed byte string: the repository's round-trip
test pins the empty byte string to the 20-byte zero (null-address) value. -/
def parsedFieldString (bs : List Nat) : List Nat :=
  if bs = [] then List.replicate 20 0 else bs

structure DecodedOutput where
  outputType : Nat
  outputGuard : List Nat
  currency : List Nat
  amount : String
deriving DecidableEq, Repr

structure DecodedTx where
  txType : Nat
  inputs : List UtxoInput
  outputs : List DecodedOutput
  txData : Nat
  metadata : List Nat
deriving DecidableEq, Repr

/-- Parses the payload of the inputs list: a sequence of byte-string items,
each read as a UTXO position and unpacked.  `fuel` bounds the recursion and
is instantiated with the payload length. -/
def parsePosItems (fuel : Nat) (bytes : List Nat) : Option (List UtxoInput) :=
  match fuel with
  | 0 => if bytes = [] then some [] else none
  | fuel + 1 =>
    if bytes = [] then some []
    else
      match parseStr bytes with
      | none => none
      | some (s, rest) =>
        match parsePosItems fuel rest with
        | none => none
        | some items => some (decodeUtxoPos (bytesToNat s) :: items)

/-- Parses one output item `[outputType, [outputGuard, currency, amount]]`,
returning the decoded output (amount as a decimal string) and the rest. -/
def parseOutputItem (bytes : List Nat) : Option (DecodedOutput × List Nat) :=
  match parseList bytes with
  | none => none
  | some (payload, rest) =>
    match parseStr payload with
    | none => none
    | some (typeBytes, r1) =>
      match parseList r1 with
      | none => none
      | some (inner, _) =>
        match parseStr inner with
        | none => none
        | some (ownerBytes, r2) =>
          match parseStr r2 with
          | none => none
          | some (currencyBytes, r3) =>
            match parseStr r3 with
            | none => none
            | some (amountBytes, _) =>
              some ({ outputType := bytesToNat typeBytes,
                      outputGuard := parsedFieldString ownerBytes,
                      currency := parsedFieldString currencyBytes,
                      amount := Nat.repr (bytesToNat amountBytes) }, rest)

/-- Parses the payload of the outputs list as a sequence of output items. -/
def parseOutputItems (fuel : Nat) (bytes : List Nat) : Option (List DecodedOutput) :=
  match fuel with
  | 0 => if bytes = [] then some [] else none
  | fuel + 1 =>
    if bytes = [] then some []
    else
      match parseOutputItem bytes with
      | none => none
      | some (o, rest) =>
        match parseOutputItems fuel rest with
        | none => none
        | some os => some (o :: os)

/-- Modelled from the spec (§4.1): `transaction.decodeTxBytes` is not under
src/; it parses the five-item list `[txType, inputs, outputs, txData,
metadata]`, failing (`none`, the spec's `CodecError`) on malformed length
prefixes or wrong field counts. -/
def decodeTxBytes (bytes : List Nat) : Option DecodedTx :=
  match parseList bytes with
  | none => none
  | some (payload, rest) =>
    if rest = [] then
      match parseStr payload with
      | none => none
      | some (typeBytes, r1) =>
        match parseList r1 with
        | none => none
        | some (inputsPayload, r2) =>
          match parsePosItems inputsPayload.length inputsPayload with
          | none => none
          | some inputs =>
            match parseList r2 with
            | none => none
            | some (outputsPayload, r3) =>
              match parseOutputItems outputsPayload.length outputsPayload with
              | none => none
              | some outputs =>
                match parseStr r3 with
                | none => none
                | some (txDataBytes, r4) =>
                  match parseStr r4 with
                  | none => none
                  | some (metadataBytes, r5) =>
                    if r5 = [] then
                      some { txType := bytesToNat typeBytes, inputs := inputs,
                             outputs := outputs, txData := bytesToNat txDataBytes,
                             metadata := parsedFieldString metadataBytes }
                    else none
    else none

/-- The decoded image of a structurally well-formed transaction under
`decodeTxBytes ∘ encodeTx`. -/
def decodedOf (tx : Transaction) : DecodedTx :=
  { txType := tx.txType,
    inputs := tx.inputs.map (fun i => decodeUtxoPos (encodeUtxoPos i)),
    outputs := tx.outputs.map (fun o =>
      { outputType := o.outputType, outputGuard := parsedFieldString o.outputGuard,
        currency := parsedFieldString o.currency, amount := Nat.repr o.amount }),
    txData := tx.txData,
    metadata := parsedFieldString tx.metadata }

/-! ### Round-trip lemmas for the transaction codec -/

/-- Decoded image of a single output: the amount comes back as a decimal
string of the same value. -/
def decodedOutput (o : TxOutput) : DecodedOutput :=
  { outputType := o.outputType, outputGuard := parsedFieldString o.outputGuard,
    currency := parsedFieldString o.currency, amount := Nat.repr o.amount }

/-- Structural well-formedness of a transaction under which the byte-level
round trip is proved: 0–4 inputs and outputs, 20-byte addresses and currency
identifiers, metadata at most 32 bytes, and numeric fields below `256 ^ 55`
(far beyond the 32-byte `uint256` range the ledger supports). -/
def WellFormedTx (tx : Transaction) : Prop :=
  tx.inputs.length ≤ 4 ∧ tx.outputs.length ≤ 4 ∧
  (∀ i ∈ tx.inputs, encodeUtxoPos i < 256 ^ 32) ∧
  (∀ o ∈ tx.outputs, o.outputType < 256 ^ 55 ∧ o.outputGuard.length = 20 ∧
    o.currency.length = 20 ∧ o.amount < 256 ^ 55) ∧
  tx.txType < 256 ^ 55 ∧ tx.txData < 256 ^ 55 ∧ tx.metadata.length ≤ 32

instance (tx : Transaction) : Decidable (WellFormedTx tx) := by
  unfold WellFormedTx
  infer_instance

/-! ### Exit priority codec and exit queue (rootchain.js, `getExitQueue`)

The code renders a queue entry's `uint256` priority as a 256-character binary
string (`asBN.toString(2, 256)`, big-endian and left-padded with zero bits),
takes characters [0,42) as `exitableAt` and characters [96,256) as `exitId`
(`binary.substr(0, 42)` and `binary.substr(96, 160)`), and reads each back as
an unsigned integer. -/

/-- Big-endian binary rendering of `n`, left-padded with zero bits to exactly
`w` bits (the model of `asBN.toString(2, w)` for `n < 2 ^ w`). -/
def natToBinary : Nat → Nat → List Nat
  | 0, _ => []
  | w + 1, n => (n / 2 ^ w % 2) :: natToBinary w n

/-- Reads a big-endian bit string back as an unsigned integer. -/
def bitsToNat (bits : List Nat) : Nat :=
  digitsToNat 2 bits

/-- One decoded exit-queue entry.  The code returns the three components as
decimal strings of these values; the model keeps the values. -/
structure ExitQueueEntry where
  priority : Nat
  exitableAt : Nat
  exitId : Nat
deriving DecidableEq, Repr

/-- The exit-priority decoder of `getExitQueue` (rootchain.js lines 202–221):
binary rendering padded to 256 bits, bits [0,42) as `exitableAt`, bits
[96,256) as `exitId`. -/
def decodeExitPriority (p : Nat) : ExitQueueEntry :=
  { priority := p,
    exitableAt := bitsToNat ((natToBinary 256 p).take 42),
    exitId := bitsToNat (((natToBinary 256 p).drop 96).take 160) }

/-- Function `getExitQueue` (rootchain.js lines 188–227) given the raw heap array read
from the priority-queue contract: a non-empty array has its index-0 sentinel
removed (`rawExitQueue.slice(1)`) and every remaining entry decoded in heap
storage order; an empty array yields an empty list. -/
def getExitQueue (rawExitQueue : List Nat) : List ExitQueueEntry :=
  if rawExitQueue.length ≠ 0 then
    (rawExitQueue.drop 1).map decodeExitPriority
  else []

/-! ### Exit time computation (rootchain.js, `getExitTime`) -/

/-- The scheduled finalization time computed by `getExitTime` (rootchain.js
lines 157–178) once both blocks are in hand: if `submissionBlockNumber` is
not a multiple of 1000 (a deposit, with elevated exit priority) the result is
`max(exitBlock.timestamp + minExitPeriod, submissionBlock.timestamp +
minExitPeriod)`, otherwise `max(exitBlock.timestamp + minExitPeriod,
submissionBlock.timestamp + minExitPeriod*2)`; a 5-second buffer is added. -/
def getExitTimeScheduled (submissionBlockNumber exitBlockTimestamp
    submissionBlockTimestamp minExitPeriodSeconds : Nat) : Nat :=
  let bufferSeconds := 5
  let scheduledFinalizationTime :=
    if submissionBlockNumber % 1000 ≠ 0 then
      max (exitBlockTimestamp + minExitPeriodSeconds)
          (submissionBlockTimestamp + minExitPeriodSeconds)
    else
      max (exitBlockTimestamp + minExitPeriodSeconds)
          (submissionBlockTimestamp + minExitPeriodSeconds * 2)
  scheduledFinalizationTime + bufferSeconds

/-- The formula the spec states for `getExitTime`, for comparison with the
code's `getExitTimeScheduled`: `max(exitRequestBlock.timestamp,
submissionBlock.timestamp) + minExitPeriod` for deposits and
`max(exitRequestBlock.timestamp, submissionBlock.timestamp + 2*minExitPeriod)`
otherwise, plus the 5-second buffer. -/
def getExitTimeSpecClaimed (submissionBlockNumber exitBlockTimestamp
    submissionBlockTimestamp minExitPeriodSeconds : Nat) : Nat :=
  (if submissionBlockNumber % 1000 ≠ 0 then
      max exitBlockTimestamp submissionBlockTimestamp + minExitPeriodSeconds
    else
      max exitBlockTimestamp (submissionBlockTimestamp + 2 * minExitPeriodSeconds)) + 5

structure EthBlock where
  timestamp : Nat
deriving DecidableEq, Repr

/-- Outcome of one `getExitTime` invocation. -/
inductive ExitTimeOutcome where
  | ok (scheduledFinalizationTime : Nat)
  | nullDeref
  | blockNotFound (blknum : Nat)
deriving DecidableEq, Repr

/-- One invocation of `getExitTime` (rootchain.js lines 127–179) given what
`web3.eth.getBlock` returns for the exit-request block.  The pair's second
component records whether a retry was scheduled (`setTimeout`, line 145);
the scheduled retry is detached: its eventual result is discarded by the
timer callback.  When the block is missing and retries remain, the code
schedules the retry but then falls through past the `if` and dereferences
the missing block (`exitBlock.timestamp`, line 163/168), so the invocation
itself fails with a type error (`nullDeref`); only at `retries = 0` does it
throw the named "Could not get exit request block data" error. -/
def getExitTimeInvocation (exitBlock : Option EthBlock) (retries : Nat)
    (exitRequestBlockNumber submissionBlockNumber : Nat)
    (submissionBlock : EthBlock) (minExitPeriodSeconds : Nat) :
    ExitTimeOutcome × Bool :=
  match exitBlock with
  | none =>
    if retries > 0 then (.nullDeref, true)
    else (.blockNotFound exitRequestBlockNumber, false)
  | some blk =>
    (.ok (getExitTimeScheduled submissionBlockNumber blk.timestamp
            submissionBlock.timestamp minExitPeriodSeconds), false)

/-- The cascade of invocations produced when the exit-request block is never
available: the caller's invocation first, then each detached timer-scheduled
retry with a decremented retry budget. -/
def retryCascade (exitRequestBlockNumber submissionBlockNumber : Nat)
    (submissionBlock : EthBlock) (minExitPeriodSeconds : Nat) :
    Nat → List (ExitTimeOutcome × Bool)
  | 0 => [getExitTimeInvocation none 0 exitRequestBlockNumber
            submissionBlockNumber submissionBlock minExitPeriodSeconds]
  | r + 1 => getExitTimeInvocation none (r + 1) exitRequestBlockNumber
            submissionBlockNumber submissionBlock minExitPeriodSeconds ::
      retryCascade exitRequestBlockNumber submissionBlockNumber submissionBlock
        minExitPeriodSeconds r

/-! ### Lazy memoized handle resolution (rootchain.js, `getPaymentExitGame`)

`getPaymentExitGame` (rootchain.js lines 94–116) guards the resolution with
`if (!this.paymentExitGame)`, performs `await`-suspending on-chain lookups,
and only then stores the result in `this.paymentExitGame`.  The model keeps
the per-instance slot, abstracts the resolved handle (address, contract and
the three bond sizes) into one value supplied by the chain lookup, and runs
two calls under an explicit interleaving of their atomic segments: segment 0
is the check (a cache hit returns the stored value with no lookup; a miss
issues the lookup and suspends), segment 1 is the resumption after the
lookup, which stores and returns the looked-up value. -/

structure RootChainClient where
  paymentExitGame : Option Nat
deriving DecidableEq, Repr

structure PendingCall where
  phase : Nat
  result : Option Nat
deriving DecidableEq, Repr

/-- One atomic segment of a `getPaymentExitGame` call: `phase 0` runs the
check-then-act guard (returning the memoized value, or issuing the on-chain
lookup — counted in the last component — and suspending at the `await`);
`phase 1` resumes after the lookup, stores the value on the client and
returns it; a finished call is left unchanged. -/
def stepGetPaymentExitGame (client : RootChainClient) (c : PendingCall)
    (lookupValue : Nat) (lookups : Nat) :
    RootChainClient × PendingCall × Nat :=
  match c.phase with
  | 0 =>
    match client.paymentExitGame with
    | some v => (client, { phase := 2, result := some v }, lookups)
    | none => (client, { phase := 1, result := none }, lookups + 1)
  | 1 => ({ paymentExitGame := some lookupValue },
          { phase := 2, result := some lookupValue }, lookups)
  | _ => (client, c, lookups)

/-- Runs two `getPaymentExitGame` calls A and B on one fresh client under a
schedule (`true` steps A, `false` steps B), returning the client, both call
states, and how many on-chain lookups were performed. -/
def runTwoCalls (lookupValue : Nat) (sched : List Bool) :
    RootChainClient × PendingCall × PendingCall × Nat :=
  sched.foldl
    (fun st pick =>
      if pick then
        let r := stepGetPaymentExitGame st.1 st.2.1 lookupValue st.2.2.2
        (r.1, r.2.1, st.2.2.1, r.2.2)
      else
        let r := stepGetPaymentExitGame st.1 st.2.2.1 lookupValue st.2.2.2
        (r.1, st.2.1, r.2.1, r.2.2))
    (⟨none⟩, ⟨0, none⟩, ⟨0, none⟩, 0)

/-! ### Merging UTXOs (src/unnamed/part_001, `mergeUtxosToOutput`) -/

structure Utxo where
  owner : String
  currency : String
  amount : Nat
deriving DecidableEq, Repr, Inhabited

structure MergedOutput where
  outputType : Nat
  outputGuard : String
  currency : String
  amount : Nat
deriving DecidableEq, Repr

/-- Lodash `uniqBy`: keeps the first element for each distinct key, in
order. -/
def uniqBy {α β : Type} [DecidableEq β] (f : α → β) (l : List α) : List α :=
  l.foldl (fun acc x => if ∃ y ∈ acc, f y = f x then acc else acc ++ [x]) []

/-- Function `mergeUtxosToOutput` (src/unnamed/part_001 lines 18–44): rejects fewer
than 2 or more than 4 UTXOs, then mixed currencies, then mixed owners
(each via `uniqBy(...).length === 1`), and otherwise returns the type-1
output owned by `utxos[0].owner` whose amount is the exact sum of the
amounts (BN.js arbitrary-precision addition). -/
def mergeUtxosToOutput (utxos : List Utxo) : Except String MergedOutput :=
  if utxos.length < 2 then .error "Must merge at least 2 utxos"
  else if utxos.length > 4 then .error "Cannot merge more than 4 utxos"
  else if ¬ (uniqBy (fun u => u.currency) utxos).length = 1 then
    .error "All utxo currency must be the same"
  else if ¬ (uniqBy (fun u => u.owner) utxos).length = 1 then
    .error "All utxo owner must be the same"
  else
    .ok { outputType := 1,
          outputGuard := (utxos.headD default).owner,
          currency := (utxos.headD default).currency,
          amount := utxos.foldl (fun prev curr => prev + curr.amount) 0 }

/-! ### Claim-level fixtures from the repository's test file -/

/-- The deposit owner address `0x854951e37c68a99a52d9e3ae15e0cb62184a613e`. -/
def depositOwnerFixture : List Nat :=
  [133, 73, 81, 227, 124, 104, 169, 154, 82, 217, 227, 174, 21, 224, 203, 98, 24, 74, 97, 62]

/-- The documented literal byte string for the deposit of amount 333 by the
fixture owner in the native currency (validators/index.js lines 294–295). -/
def depositExpectedBytes : List Nat :=
  [248, 85, 1, 192, 240, 239, 1, 237, 148, 133, 73, 81, 227, 124, 104, 169, 154, 82, 217, 227, 174, 21, 224, 203, 98, 24, 74, 97, 62, 148, 0, 0, 0, 0, 0, 0, 0, 0, 0, 0, 0, 0, 0, 0, 0, 0, 0, 0, 0, 0, 130, 1, 77, 128, 160, 0, 0, 0, 0, 0, 0, 0, 0, 0, 0, 0, 0, 0, 0, 0, 0, 0, 0, 0, 0, 0, 0, 0, 0, 0, 0, 0, 0, 0, 0, 0, 0]

/-- The output owner `0xf4ebbe787311bb955bb353b7a4d8b97af8ed1c9b` of the
single-input single-output encode test. -/
def t1TestGuard : List Nat :=
  [244, 235, 190, 120, 115, 17, 187, 149, 91, 179, 83, 183, 164, 216, 185, 122, 248, 237, 28, 155]

/-- The byte string the repository's test (validators/index.js lines 160–161)
asserts for the transaction below when the amount is supplied as the native
number literal `500000000000000123`. -/
def t1ExpectedBytes : List Nat :=
  [248, 92, 1, 225, 160, 0, 0, 0, 0, 0, 0, 0, 0, 0, 0, 0, 0, 0, 0, 0, 0, 0, 0, 0, 0, 0, 0, 0, 0, 0, 70, 64, 89, 97, 100, 170, 0, 246, 245, 1, 243, 148, 244, 235, 190, 120, 115, 17, 187, 149, 91, 179, 83, 183, 164, 216, 185, 122, 248, 237, 28, 155, 148, 0, 0, 0, 0, 0, 0, 0, 0, 0, 0, 0, 0, 0, 0, 0, 0, 0, 0, 0, 0, 136, 6, 240, 91, 89, 211, 178, 0, 100, 128, 128]

/-- The test transaction of validators/index.js (one input `(19774001,0,0)`,
one type-1 output to `t1TestGuard` in the native currency, metadata omitted),
parametrized by the output amount. -/
def t1TestTx (amount : Nat) : Transaction :=
  { txType := 1, inputs := [⟨19774001, 0, 0⟩],
    outputs := [{ outputType := 1, outputGuard := t1TestGuard,
                  currency := ethCurrency, amount := amount }],
    txData := 0, metadata := [] }

/-! ### Theorems -/

theorem natToDigitsAux_zero (B fuel : Nat) : natToDigitsAux B fuel 0 = [] := by
  cases fuel <;> simp [natToDigitsAux]

theorem natToDigitsAux_fuel (B : Nat) (hB : 2 ≤ B) :
    ∀ f1 f2 n : Nat, n ≤ f1 → n ≤ f2 →
      natToDigitsAux B f1 n = natToDigitsAux B f2 n := by
  intro f1
  induction f1 with
  | zero =>
    intro f2 n h1 _
    have hn : n = 0 := Nat.le_zero.mp h1
    subst hn
    rw [natToDigitsAux_zero, natToDigitsAux_zero]
  | succ a ih =>
    intro f2 n h1 h2
    by_cases hn : n = 0
    · subst hn
      rw [natToDigitsAux_zero, natToDigitsAux_zero]
    · obtain ⟨b, rfl⟩ : ∃ b, f2 = b + 1 := by
        cases f2 with
        | zero => exact absurd (Nat.le_zero.mp h2) hn
        | succ b => exact ⟨b, rfl⟩
      simp only [natToDigitsAux, if_neg hn]
      have hdiv : n / B < n :=
        Nat.div_lt_self (Nat.pos_of_ne_zero hn) (Nat.lt_of_lt_of_le (by decide) hB)
      have ha : n / B ≤ a := Nat.le_of_lt_succ (Nat.lt_of_lt_of_le hdiv h1)
      have hb : n / B ≤ b := Nat.le_of_lt_succ (Nat.lt_of_lt_of_le hdiv h2)
      rw [ih b (n / B) ha hb]

theorem natToDigits_zero (B : Nat) : natToDigits B 0 = [] := by
  simp [natToDigits, natToDigitsAux_zero]

theorem natToDigits_eq (B : Nat) (hB : 2 ≤ B) (n : Nat) :
    natToDigits B n = if n = 0 then [] else natToDigits B (n / B) ++ [n % B] := by
  by_cases hn : n = 0
  · simp [hn, natToDigits_zero]
  · obtain ⟨m, rfl⟩ : ∃ m, n = m + 1 := ⟨n - 1, (Nat.succ_pred_eq_of_pos (Nat.pos_of_ne_zero hn)).symm⟩
    simp only [natToDigits, natToDigitsAux, if_neg hn]
    have hdiv : (m + 1) / B < m + 1 :=
      Nat.div_lt_self (Nat.succ_pos m) (Nat.lt_of_lt_of_le (by decide) hB)
    rw [natToDigitsAux_fuel B hB m ((m + 1) / B) ((m + 1) / B) (Nat.le_of_lt_succ hdiv) (Nat.le_refl _)]

theorem digitsToNat_foldl (B : Nat) (ds : List Nat) (a : Nat) :
    ds.foldl (fun x d => B * x + d) a = a * B ^ ds.length + digitsToNat B ds := by
  induction ds generalizing a with
  | nil => simp [digitsToNat]
  | cons d ds ih =>
    simp only [List.foldl_cons, List.length_cons, digitsToNat]
    rw [ih (B * a + d), ih (B * 0 + d)]
    ring

theorem digitsToNat_append (B : Nat) (xs ys : List Nat) :
    digitsToNat B (xs ++ ys) = digitsToNat B xs * B ^ ys.length + digitsToNat B ys := by
  simp only [digitsToNat, List.foldl_append]
  rw [digitsToNat_foldl]
  rfl

theorem digitsToNat_singleton (B d : Nat) : digitsToNat B [d] = d := by
  simp [digitsToNat]

theorem digitsToNat_natToDigits (B : Nat) (hB : 2 ≤ B) (n : Nat) :
    digitsToNat B (natToDigits B n) = n := by
  induction n using Nat.strong_induction_on with
  | _ n ih =>
    rw [natToDigits_eq B hB n]
    by_cases hn : n = 0
    · simp [hn, digitsToNat]
    · rw [if_neg hn, digitsToNat_append, digitsToNat_singleton]
      have hdiv : n / B < n :=
        Nat.div_lt_self (Nat.pos_of_ne_zero hn) (Nat.lt_of_lt_of_le (by decide) hB)
      rw [ih (n / B) hdiv]
      simp only [List.length_singleton, pow_one]
      rw [Nat.mul_comm]
      exact Nat.div_add_mod n B

theorem natToDigits_length_le (B : Nat) (hB : 2 ≤ B) :
    ∀ n k : Nat, n < B ^ k → (natToDigits B n).length ≤ k := by
  intro n
  induction n using Nat.strong_induction_on with
  | _ n ih =>
    intro k hk
    rw [natToDigits_eq B hB n]
    by_cases hn : n = 0
    · simp [hn]
    · rw [if_neg hn]
      obtain ⟨j, rfl⟩ : ∃ j, k = j + 1 := by
        cases k with
        | zero => exact absurd (Nat.lt_one_iff.mp (by simpa using hk)) hn
        | succ j => exact ⟨j, rfl⟩
      have hdiv : n / B < n :=
        Nat.div_lt_self (Nat.pos_of_ne_zero hn) (Nat.lt_of_lt_of_le (by decide) hB)
      have hlt : n / B < B ^ j := by
        rw [Nat.div_lt_iff_lt_mul (Nat.lt_of_lt_of_le (by decide) hB)]
        calc n < B ^ (j + 1) := hk
        _ = B ^ j * B := by rw [pow_succ]
      have := ih (n / B) hdiv j hlt
      simp only [List.length_append, List.length_singleton]
      omega

theorem natToDigits_ne_nil (B : Nat) (hB : 2 ≤ B) (n : Nat) (hn : n ≠ 0) :
    natToDigits B n ≠ [] := by
  rw [natToDigits_eq B hB n, if_neg hn]
  simp

theorem digitsToNat_replicate_zero (B k : Nat) :
    digitsToNat B (List.replicate k 0) = 0 := by
  induction k with
  | zero => rfl
  | succ k ih =>
    simp only [List.replicate_succ, digitsToNat, List.foldl_cons] at *
    simpa using ih

theorem digitsToNat_replicate_append (B k : Nat) (bs : List Nat) :
    digitsToNat B (List.replicate k 0 ++ bs) = digitsToNat B bs := by
  rw [digitsToNat_append, digitsToNat_replicate_zero]
  simp

theorem bytesToNat_natToBytes (n : Nat) : bytesToNat (natToBytes n) = n :=
  digitsToNat_natToDigits 256 (by decide) n

theorem natToBytes_length_le (n k : Nat) (h : n < 256 ^ k) :
    (natToBytes n).length ≤ k :=
  natToDigits_length_le 256 (by decide) n k h

theorem natToBytes_ne_nil (n : Nat) (hn : n ≠ 0) : natToBytes n ≠ [] :=
  natToDigits_ne_nil 256 (by decide) n hn

theorem bytesToNat_replicate_append (k : Nat) (bs : List Nat) :
    bytesToNat (List.replicate k 0 ++ bs) = bytesToNat bs :=
  digitsToNat_replicate_append 256 k bs

theorem rlpStr_ne_nil (bs : List Nat) : rlpStr bs ≠ [] := by
  unfold rlpStr
  split
  · next h => exact List.ne_nil_of_length_pos (by omega)
  · split <;> simp

theorem rlpList_ne_nil (payload : List Nat) : rlpList payload ≠ [] := by
  unfold rlpList
  split <;> simp

theorem parseStr_rlpStr (bs rest : List Nat) (h : bs.length < 2 ^ 64) :
    parseStr (rlpStr bs ++ rest) = some (bs, rest) := by
  unfold rlpStr
  split
  · next hone =>
    obtain ⟨b, rfl⟩ := List.length_eq_one.mp hone.1
    have hb : b < 128 := by simpa using hone.2
    simp [parseStr, hb]
  · next hone =>
    split
    · next hshort =>
      have h1 : ¬ (128 + bs.length < 128) := by omega
      have h2 : 128 + bs.length ≤ 183 := by omega
      have h3 : 128 + bs.length - 128 = bs.length := by omega
      simp only [List.cons_append, parseStr, if_neg h1, if_pos h2, h3,
        List.take_left' rfl, List.drop_left' rfl, List.length_append,
        if_pos (Nat.le_add_right _ _)]
    · next hlong =>
      have h56 : 56 ≤ bs.length := by omega
      have hne : natToBytes bs.length ≠ [] := natToBytes_ne_nil _ (by omega)
      have hll1 : 1 ≤ (natToBytes bs.length).length := by
        cases hnb : natToBytes bs.length with
        | nil => exact absurd hnb hne
        | cons x xs => simp
      have hll8 : (natToBytes bs.length).length ≤ 8 := by
        apply natToBytes_length_le
        calc bs.length < 2 ^ 64 := h
        _ = 256 ^ 8 := by norm_num
      have h1 : ¬ (183 + (natToBytes bs.length).length < 128) := by omega
      have h2 : ¬ (183 + (natToBytes bs.length).length ≤ 183) := by omega
      have h3 : 183 + (natToBytes bs.length).length ≤ 191 := by omega
      have h4 : 183 + (natToBytes bs.length).length - 183 = (natToBytes bs.length).length := by
        omega
      simp only [List.cons_append, parseStr, if_neg h1, if_neg h2, if_pos h3, h4]
      rw [List.append_assoc, List.take_left' rfl, List.drop_left' rfl,
        bytesToNat_natToBytes]
      have hlen : (natToBytes bs.length).length ≤ (natToBytes bs.length ++ (bs ++ rest)).length := by
        simp
      rw [if_pos hlen, List.take_left' rfl, List.drop_left' rfl,
        if_pos (by simp : bs.length ≤ (bs ++ rest).length)]

theorem parseList_rlpList (payload rest : List Nat) (h : payload.length < 2 ^ 64) :
    parseList (rlpList payload ++ rest) = some (payload, rest) := by
  unfold rlpList
  split
  · next hshort =>
    have h1 : ¬ (192 + payload.length < 192) := by omega
    have h2 : 192 + payload.length ≤ 247 := by omega
    have h3 : 192 + payload.length - 192 = payload.length := by omega
    simp only [List.cons_append, parseList, if_neg h1, if_pos h2, h3,
      List.take_left' rfl, List.drop_left' rfl, List.length_append,
      if_pos (Nat.le_add_right _ _)]
  · next hlong =>
    have hne : natToBytes payload.length ≠ [] := natToBytes_ne_nil _ (by omega)
    have hll1 : 1 ≤ (natToBytes payload.length).length := by
      cases hnb : natToBytes payload.length with
      | nil => exact absurd hnb hne
      | cons x xs => simp
    have hll8 : (natToBytes payload.length).length ≤ 8 := by
      apply natToBytes_length_le
      calc payload.length < 2 ^ 64 := h
      _ = 256 ^ 8 := by norm_num
    have h1 : ¬ (247 + (natToBytes payload.length).length < 192) := by omega
    have h2 : ¬ (247 + (natToBytes payload.length).length ≤ 247) := by omega
    have h4 : 247 + (natToBytes payload.length).length - 247 = (natToBytes payload.length).length := by
      omega
    simp only [List.cons_append, parseList, if_neg h1, if_neg h2, h4]
    rw [List.append_assoc, List.take_left' rfl, List.drop_left' rfl,
      bytesToNat_natToBytes]
    have hlen : (natToBytes payload.length).length ≤ (natToBytes payload.length ++ (payload ++ rest)).length := by
      simp
    rw [if_pos hlen, List.take_left' rfl, List.drop_left' rfl,
      if_pos (by simp : payload.length ≤ (payload ++ rest).length)]

theorem parseStr_consumes {bytes s rest : List Nat}
    (h : parseStr bytes = some (s, rest)) : rest.length < bytes.length := by
  match bytes with
  | [] => simp [parseStr] at h
  | b :: tl =>
    simp only [parseStr] at h
    split at h
    · simp only [Option.some.injEq, Prod.mk.injEq] at h
      obtain ⟨_, rfl⟩ := h
      simp
    · split at h
      · split at h
        · simp only [Option.some.injEq, Prod.mk.injEq] at h
          obtain ⟨_, rfl⟩ := h
          simp only [List.length_drop, List.length_cons]
          omega
        · exact absurd h (by simp)
      · split at h
        · split at h
          · split at h
            · simp only [Option.some.injEq, Prod.mk.injEq] at h
              obtain ⟨_, rfl⟩ := h
              simp only [List.length_drop, List.length_cons]
              omega
            · exact absurd h (by simp)
          · exact absurd h (by simp)
        · exact absurd h (by simp)

theorem rlpStr_length_le (bs : List Nat) (h : bs.length ≤ 55) :
    (rlpStr bs).length ≤ 1 + bs.length := by
  unfold rlpStr
  split
  · omega
  · simp only [List.length_cons]
    omega

theorem rlpList_length_le (payload : List Nat) (h : payload.length < 2 ^ 64) :
    (rlpList payload).length ≤ 9 + payload.length := by
  unfold rlpList
  split
  · simp only [List.length_cons]
    omega
  · have hll8 : (natToBytes payload.length).length ≤ 8 := by
      apply natToBytes_length_le
      calc payload.length < 2 ^ 64 := h
      _ = 256 ^ 8 := by norm_num
    simp only [List.length_cons, List.length_append]
    omega

theorem padTo32_length (bs : List Nat) (h : bs.length ≤ 32) :
    (padTo32 bs).length = 32 := by
  simp only [padTo32, List.length_append, List.length_replicate]
  omega

theorem bytesToNat_padTo32 (bs : List Nat) : bytesToNat (padTo32 bs) = bytesToNat bs :=
  bytesToNat_replicate_append _ bs

theorem encodeInput_eq (i : UtxoInput) :
    encodeInput i = rlpStr (padTo32 (natToBytes (encodeUtxoPos i))) := rfl

theorem encodeInput_length (i : UtxoInput) (h : encodeUtxoPos i < 256 ^ 32) :
    (encodeInput i).length = 33 := by
  have h32 : (padTo32 (natToBytes (encodeUtxoPos i))).length = 32 :=
    padTo32_length _ (natToBytes_length_le _ _ h)
  simp [encodeInput, rlpStr, h32]

theorem encodeInputs_length (l : List UtxoInput)
    (h : ∀ i ∈ l, encodeUtxoPos i < 256 ^ 32) :
    (encodeInputs l).length = 33 * l.length := by
  induction l with
  | nil => simp [encodeInputs]
  | cons i is ih =>
    simp only [encodeInputs, List.length_append, List.length_cons]
    rw [encodeInput_length i (h i (by simp)), ih (fun j hj => h j (by simp [hj]))]
    ring

theorem encodeOutput_inner_length_le (o : TxOutput)
    (hg : o.outputGuard.length = 20) (hc : o.currency.length = 20)
    (ha : o.amount < 256 ^ 55) :
    (rlpStr o.outputGuard ++ (rlpStr o.currency ++ rlpStr (natToBytes o.amount))).length ≤ 98 := by
  have h1 : (rlpStr o.outputGuard).length ≤ 21 := by
    have := rlpStr_length_le o.outputGuard (by omega)
    omega
  have h2 : (rlpStr o.currency).length ≤ 21 := by
    have := rlpStr_length_le o.currency (by omega)
    omega
  have h3 : (rlpStr (natToBytes o.amount)).length ≤ 56 := by
    have hlen := natToBytes_length_le o.amount 55 ha
    have := rlpStr_length_le (natToBytes o.amount) hlen
    omega
  simp only [List.length_append]
  omega

theorem encodeOutput_payload_length_le (o : TxOutput)
    (htype : o.outputType < 256 ^ 55)
    (hg : o.outputGuard.length = 20) (hc : o.currency.length = 20)
    (ha : o.amount < 256 ^ 55) :
    (rlpStr (natToBytes o.outputType) ++
      rlpList (rlpStr o.outputGuard ++ (rlpStr o.currency ++ rlpStr (natToBytes o.amount)))).length ≤ 163 := by
  have hinner := encodeOutput_inner_length_le o hg hc ha
  have h1 : (rlpStr (natToBytes o.outputType)).length ≤ 56 := by
    have hlen := natToBytes_length_le o.outputType 55 htype
    have := rlpStr_length_le (natToBytes o.outputType) hlen
    omega
  have h2 := rlpList_length_le
    (rlpStr o.outputGuard ++ (rlpStr o.currency ++ rlpStr (natToBytes o.amount)))
    (lt_of_le_of_lt hinner (by norm_num))
  simp only [List.length_append]
  omega

theorem encodeOutput_length_le (o : TxOutput)
    (htype : o.outputType < 256 ^ 55)
    (hg : o.outputGuard.length = 20) (hc : o.currency.length = 20)
    (ha : o.amount < 256 ^ 55) :
    (encodeOutput o).length ≤ 172 := by
  have hp := encodeOutput_payload_length_le o htype hg hc ha
  have := rlpList_length_le
    (rlpStr (natToBytes o.outputType) ++
      rlpList (rlpStr o.outputGuard ++ (rlpStr o.currency ++ rlpStr (natToBytes o.amount))))
    (lt_of_le_of_lt hp (by norm_num))
  simpa [encodeOutput] using by omega

theorem encodeOutputs_length_le (l : List TxOutput)
    (h : ∀ o ∈ l, o.outputType < 256 ^ 55 ∧ o.outputGuard.length = 20 ∧
          o.currency.length = 20 ∧ o.amount < 256 ^ 55) :
    (encodeOutputs l).length ≤ 172 * l.length := by
  induction l with
  | nil => simp [encodeOutputs]
  | cons o os ih =>
    obtain ⟨h1, h2, h3, h4⟩ := h o (by simp)
    have ho := encodeOutput_length_le o h1 h2 h3 h4
    have hos := ih (fun j hj => h j (by simp [hj]))
    simp only [encodeOutputs, List.length_append, List.length_cons]
    calc (encodeOutput o).length + (encodeOutputs os).length
        ≤ 172 + 172 * os.length := by omega
    _ = 172 * (os.length + 1) := by ring

theorem parsePosItems_round (l : List UtxoInput) :
    ∀ fuel : Nat, (∀ i ∈ l, encodeUtxoPos i < 256 ^ 32) →
      (encodeInputs l).length ≤ fuel →
      parsePosItems fuel (encodeInputs l) =
        some (l.map fun i => decodeUtxoPos (encodeUtxoPos i)) := by
  induction l with
  | nil =>
    intro fuel _ _
    cases fuel <;> simp [encodeInputs, parsePosItems]
  | cons i is ih =>
    intro fuel h hfuel
    have hi : encodeUtxoPos i < 256 ^ 32 := h i (by simp)
    have h32 : (padTo32 (natToBytes (encodeUtxoPos i))).length = 32 :=
      padTo32_length _ (natToBytes_length_le _ _ hi)
    have hilen : (encodeInput i).length = 33 := encodeInput_length i hi
    have hlen : (encodeInputs (i :: is)).length = 33 + (encodeInputs is).length := by
      simp only [encodeInputs, List.length_append, hilen]
    obtain ⟨f, rfl⟩ : ∃ f, fuel = f + 1 := by
      cases fuel with
      | zero => omega
      | succ f => exact ⟨f, rfl⟩
    have hne : encodeInputs (i :: is) ≠ [] := by
      apply List.ne_nil_of_length_pos
      omega
    simp only [parsePosItems, if_neg hne]
    have hparse : parseStr (encodeInputs (i :: is)) =
        some (padTo32 (natToBytes (encodeUtxoPos i)), encodeInputs is) := by
      show parseStr (encodeInput i ++ encodeInputs is) = _
      rw [encodeInput_eq]
      exact parseStr_rlpStr _ _ (by omega)
    rw [hparse]
    dsimp only
    rw [ih f (fun j hj => h j (by simp [hj])) (by omega)]
    rw [bytesToNat_padTo32, bytesToNat_natToBytes]
    simp

theorem parseOutputItem_round (o : TxOutput) (rest : List Nat)
    (htype : o.outputType < 256 ^ 55)
    (hg : o.outputGuard.length = 20) (hc : o.currency.length = 20)
    (ha : o.amount < 256 ^ 55) :
    parseOutputItem (encodeOutput o ++ rest) = some (decodedOutput o, rest) := by
  have hamt : (natToBytes o.amount).length ≤ 55 := natToBytes_length_le _ _ ha
  have htyb : (natToBytes o.outputType).length ≤ 55 := natToBytes_length_le _ _ htype
  have hinner := encodeOutput_inner_length_le o hg hc ha
  have hpay := encodeOutput_payload_length_le o htype hg hc ha
  have hs1 : parseList (encodeOutput o ++ rest) =
      some (rlpStr (natToBytes o.outputType) ++
        rlpList (rlpStr o.outputGuard ++ (rlpStr o.currency ++ rlpStr (natToBytes o.amount))), rest) := by
    simp only [encodeOutput]
    exact parseList_rlpList _ _ (lt_of_le_of_lt hpay (by norm_num))
  have hs2 : parseStr (rlpStr (natToBytes o.outputType) ++
      rlpList (rlpStr o.outputGuard ++ (rlpStr o.currency ++ rlpStr (natToBytes o.amount)))) =
      some (natToBytes o.outputType,
        rlpList (rlpStr o.outputGuard ++ (rlpStr o.currency ++ rlpStr (natToBytes o.amount)))) :=
    parseStr_rlpStr _ _ (lt_of_le_of_lt htyb (by norm_num))
  have hs3 : parseList
      (rlpList (rlpStr o.outputGuard ++ (rlpStr o.currency ++ rlpStr (natToBytes o.amount)))) =
      some (rlpStr o.outputGuard ++ (rlpStr o.currency ++ rlpStr (natToBytes o.amount)), []) := by
    conv_lhs => rw [← List.append_nil (rlpList (rlpStr o.outputGuard ++ (rlpStr o.currency ++ rlpStr (natToBytes o.amount))))]
    exact parseList_rlpList _ _ (lt_of_le_of_lt hinner (by norm_num))
  have hs4 : parseStr (rlpStr o.outputGuard ++ (rlpStr o.currency ++ rlpStr (natToBytes o.amount))) =
      some (o.outputGuard, rlpStr o.currency ++ rlpStr (natToBytes o.amount)) :=
    parseStr_rlpStr _ _ (by omega)
  have hs5 : parseStr (rlpStr o.currency ++ rlpStr (natToBytes o.amount)) =
      some (o.currency, rlpStr (natToBytes o.amount)) :=
    parseStr_rlpStr _ _ (by omega)
  have hs6 : parseStr (rlpStr (natToBytes o.amount)) = some (natToBytes o.amount, []) := by
    conv_lhs => rw [← List.append_nil (rlpStr (natToBytes o.amount))]
    exact parseStr_rlpStr _ _ (lt_of_le_of_lt hamt (by norm_num))
  simp only [parseOutputItem, hs1, hs2, hs3, hs4, hs5, hs6]
  simp [decodedOutput, bytesToNat_natToBytes]

theorem parseOutputItems_round (l : List TxOutput) :
    ∀ fuel : Nat,
      (∀ o ∈ l, o.outputType < 256 ^ 55 ∧ o.outputGuard.length = 20 ∧
        o.currency.length = 20 ∧ o.amount < 256 ^ 55) →
      (encodeOutputs l).length ≤ fuel →
      parseOutputItems fuel (encodeOutputs l) = some (l.map decodedOutput) := by
  induction l with
  | nil =>
    intro fuel _ _
    cases fuel <;> simp [encodeOutputs, parseOutputItems]
  | cons o os ih =>
    intro fuel h hfuel
    obtain ⟨h1, h2, h3, h4⟩ := h o (by simp)
    have holen : 0 < (encodeOutput o).length := by
      apply List.length_pos.mpr
      simp only [encodeOutput]
      exact rlpList_ne_nil _
    have hlen : (encodeOutputs (o :: os)).length =
        (encodeOutput o).length + (encodeOutputs os).length := by
      simp [encodeOutputs]
    obtain ⟨f, rfl⟩ : ∃ f, fuel = f + 1 := by
      cases fuel with
      | zero => omega
      | succ f => exact ⟨f, rfl⟩
    have hne : encodeOutputs (o :: os) ≠ [] := by
      apply List.ne_nil_of_length_pos
      omega
    simp only [parseOutputItems, if_neg hne]
    have hparse : parseOutputItem (encodeOutputs (o :: os)) = some (decodedOutput o, encodeOutputs os) := by
      show parseOutputItem (encodeOutput o ++ encodeOutputs os) = _
      exact parseOutputItem_round o _ h1 h2 h3 h4
    rw [hparse]
    dsimp only
    rw [ih f (fun j hj => h j (by simp [hj])) (by omega)]
    simp

theorem decode_encode_eq (tx : Transaction) (hwf : WellFormedTx tx) :
    decodeTxBytes (encodeTx tx) = some (decodedOf tx) := by
  obtain ⟨hin, hout, hpos, houts, htype, hdata, hmeta⟩ := hwf
  have htyb : (natToBytes tx.txType).length ≤ 55 := natToBytes_length_le _ _ htype
  have hdatb : (natToBytes tx.txData).length ≤ 55 := natToBytes_length_le _ _ hdata
  have hA : (rlpStr (natToBytes tx.txType)).length ≤ 56 := by
    have := rlpStr_length_le (natToBytes tx.txType) htyb
    omega
  have hIp : (encodeInputs tx.inputs).length = 33 * tx.inputs.length :=
    encodeInputs_length tx.inputs hpos
  have hIplt : (encodeInputs tx.inputs).length < 2 ^ 64 := by
    rw [hIp]
    calc 33 * tx.inputs.length ≤ 33 * 4 := by omega
    _ < 2 ^ 64 := by norm_num
  have hB : (rlpList (encodeInputs tx.inputs)).length ≤ 141 := by
    have := rlpList_length_le (encodeInputs tx.inputs) hIplt
    omega
  have hOp : (encodeOutputs tx.outputs).length ≤ 172 * tx.outputs.length :=
    encodeOutputs_length_le tx.outputs houts
  have hOplt : (encodeOutputs tx.outputs).length < 2 ^ 64 := by
    calc (encodeOutputs tx.outputs).length ≤ 172 * tx.outputs.length := hOp
    _ ≤ 172 * 4 := by omega
    _ < 2 ^ 64 := by norm_num
  have hC : (rlpList (encodeOutputs tx.outputs)).length ≤ 697 := by
    have := rlpList_length_le (encodeOutputs tx.outputs) hOplt
    omega
  have hD : (rlpStr (natToBytes tx.txData)).length ≤ 56 := by
    have := rlpStr_length_le (natToBytes tx.txData) hdatb
    omega
  have hE : (rlpStr tx.metadata).length ≤ 33 := by
    have := rlpStr_length_le tx.metadata (by omega)
    omega
  have hPlen : (rlpStr (natToBytes tx.txType) ++
      (rlpList (encodeInputs tx.inputs) ++
        (rlpList (encodeOutputs tx.outputs) ++
          (rlpStr (natToBytes tx.txData) ++ rlpStr tx.metadata)))).length < 2 ^ 64 := by
    simp only [List.length_append]
    calc (rlpStr (natToBytes tx.txType)).length +
        ((rlpList (encodeInputs tx.inputs)).length +
          ((rlpList (encodeOutputs tx.outputs)).length +
            ((rlpStr (natToBytes tx.txData)).length + (rlpStr tx.metadata).length)))
        ≤ 56 + (141 + (697 + (56 + 33))) := by omega
    _ < 2 ^ 64 := by norm_num
  have hs1 : parseList (encodeTx tx) =
      some (rlpStr (natToBytes tx.txType) ++
        (rlpList (encodeInputs tx.inputs) ++
          (rlpList (encodeOutputs tx.outputs) ++
            (rlpStr (natToBytes tx.txData) ++ rlpStr tx.metadata))), []) := by
    simp only [encodeTx]
    conv_lhs => rw [← List.append_nil (rlpList (rlpStr (natToBytes tx.txType) ++
      (rlpList (encodeInputs tx.inputs) ++
        (rlpList (encodeOutputs tx.outputs) ++
          (rlpStr (natToBytes tx.txData) ++ rlpStr tx.metadata)))))]
    exact parseList_rlpList _ _ hPlen
  have hs2 : parseStr (rlpStr (natToBytes tx.txType) ++
      (rlpList (encodeInputs tx.inputs) ++
        (rlpList (encodeOutputs tx.outputs) ++
          (rlpStr (natToBytes tx.txData) ++ rlpStr tx.metadata)))) =
      some (natToBytes tx.txType,
        rlpList (encodeInputs tx.inputs) ++
          (rlpList (encodeOutputs tx.outputs) ++
            (rlpStr (natToBytes tx.txData) ++ rlpStr tx.metadata))) :=
    parseStr_rlpStr _ _ (lt_of_le_of_lt htyb (by norm_num))
  have hs3 : parseList (rlpList (encodeInputs tx.inputs) ++
      (rlpList (encodeOutputs tx.outputs) ++
        (rlpStr (natToBytes tx.txData) ++ rlpStr tx.metadata))) =
      some (encodeInputs tx.inputs,
        rlpList (encodeOutputs tx.outputs) ++
          (rlpStr (natToBytes tx.txData) ++ rlpStr tx.metadata)) :=
    parseList_rlpList _ _ hIplt
  have hs4 : parsePosItems (encodeInputs tx.inputs).length (encodeInputs tx.inputs) =
      some (tx.inputs.map fun i => decodeUtxoPos (encodeUtxoPos i)) :=
    parsePosItems_round tx.inputs _ hpos (Nat.le_refl _)
  have hs5 : parseList (rlpList (encodeOutputs tx.outputs) ++
      (rlpStr (natToBytes tx.txData) ++ rlpStr tx.metadata)) =
      some (encodeOutputs tx.outputs,
        rlpStr (natToBytes tx.txData) ++ rlpStr tx.metadata) :=
    parseList_rlpList _ _ hOplt
  have hs6 : parseOutputItems (encodeOutputs tx.outputs).length (encodeOutputs tx.outputs) =
      some (tx.outputs.map decodedOutput) :=
    parseOutputItems_round tx.outputs _ houts (Nat.le_refl _)
  have hs7 : parseStr (rlpStr (natToBytes tx.txData) ++ rlpStr tx.metadata) =
      some (natToBytes tx.txData, rlpStr tx.metadata) :=
    parseStr_rlpStr _ _ (lt_of_le_of_lt hdatb (by norm_num))
  have hs8 : parseStr (rlpStr tx.metadata) = some (tx.metadata, []) := by
    conv_lhs => rw [← List.append_nil (rlpStr tx.metadata)]
    exact parseStr_rlpStr _ _ (lt_of_le_of_lt (le_of_eq rfl : tx.metadata.length ≤ tx.metadata.length) (by omega : tx.metadata.length < 2 ^ 64))
  simp only [decodeTxBytes, hs1, hs2, hs3, hs4, hs5, hs6, hs7, hs8]
  simp [decodedOf, decodedOutput, bytesToNat_natToBytes]

theorem natToBinary_length (w n : Nat) : (natToBinary w n).length = w := by
  induction w with
  | zero => rfl
  | succ w ih => simp [natToBinary, ih]

theorem digitsToNat_cons (B d : Nat) (ds : List Nat) :
    digitsToNat B (d :: ds) = d * B ^ ds.length + digitsToNat B ds := by
  show ds.foldl (fun a x => B * a + x) (B * 0 + d) = _
  rw [digitsToNat_foldl]
  ring_nf

theorem bitsToNat_natToBinary (w n : Nat) : bitsToNat (natToBinary w n) = n % 2 ^ w := by
  induction w with
  | zero => simp [natToBinary, bitsToNat, digitsToNat, Nat.mod_one]
  | succ w ih =>
    show bitsToNat ((n / 2 ^ w % 2) :: natToBinary w n) = n % 2 ^ (w + 1)
    rw [bitsToNat, digitsToNat_cons, natToBinary_length]
    show n / 2 ^ w % 2 * 2 ^ w + bitsToNat (natToBinary w n) = _
    rw [ih, pow_succ, Nat.mod_mul]
    ring

theorem natToBinary_take (w k n : Nat) :
    (natToBinary (w + k) n).take w = natToBinary w (n / 2 ^ k) := by
  induction w with
  | zero => simp [natToBinary]
  | succ w ih =>
    have harr : w + 1 + k = (w + k) + 1 := by omega
    rw [harr]
    show (n / 2 ^ (w + k) % 2) :: (natToBinary (w + k) n).take w = natToBinary (w + 1) (n / 2 ^ k)
    rw [ih]
    show _ = (n / 2 ^ k / 2 ^ w % 2) :: natToBinary w (n / 2 ^ k)
    rw [Nat.div_div_eq_div_mul, ← pow_add, Nat.add_comm k w]

theorem natToBinary_drop (k w n : Nat) :
    (natToBinary (k + w) n).drop k = natToBinary w n := by
  induction k with
  | zero => simp
  | succ k ih =>
    have harr : k + 1 + w = (k + w) + 1 := by omega
    rw [harr]
    show (natToBinary (k + w) n).drop k = natToBinary w n
    exact ih

/-- Arithmetic characterization of the bit-splitting decoder: for a 256-bit
priority, `exitableAt` is the top 42 bits and `exitId` the low 160 bits. -/
theorem decodeExitPriority_eq (p : Nat) (hp : p < 2 ^ 256) :
    decodeExitPriority p = ⟨p, p / 2 ^ 214, p % 2 ^ 160⟩ := by
  unfold decodeExitPriority
  have h1 : (natToBinary 256 p).take 42 = natToBinary 42 (p / 2 ^ 214) :=
    natToBinary_take 42 214 p
  have h2 : (natToBinary 256 p).drop 96 = natToBinary 160 p :=
    natToBinary_drop 96 160 p
  rw [h1, h2]
  rw [show (natToBinary 160 p).take 160 = natToBinary 160 p from by
    rw [← natToBinary_length 160 p]
    exact List.take_length _]
  rw [bitsToNat_natToBinary, bitsToNat_natToBinary]
  have hdivlt : p / 2 ^ 214 < 2 ^ 42 := by
    rw [Nat.div_lt_iff_lt_mul (by positivity)]
    calc p < 2 ^ 256 := hp
    _ = 2 ^ 42 * 2 ^ 214 := by rw [← pow_add]
  rw [Nat.mod_eq_of_lt hdivlt]

theorem uniqBy_go_length_mono {α β : Type} [DecidableEq β] (f : α → β) :
    ∀ (l : List α) (acc : List α),
      acc.length ≤ (l.foldl (fun acc x => if ∃ y ∈ acc, f y = f x then acc else acc ++ [x]) acc).length := by
  intro l
  induction l with
  | nil => intro acc; simp
  | cons x xs ih =>
    intro acc
    simp only [List.foldl_cons]
    by_cases h : ∃ y ∈ acc, f y = f x
    · rw [if_pos h]
      exact ih acc
    · rw [if_neg h]
      calc acc.length ≤ (acc ++ [x]).length := by simp
      _ ≤ _ := ih (acc ++ [x])

theorem uniqBy_cons {α β : Type} [DecidableEq β] (f : α → β) (x : α) (xs : List α) :
    uniqBy f (x :: xs) =
      xs.foldl (fun acc y => if ∃ z ∈ acc, f z = f y then acc else acc ++ [y]) [x] := by
  simp [uniqBy]

theorem uniqBy_singleton_iff {α β : Type} [DecidableEq β] (f : α → β) (x : α) :
    ∀ xs : List α,
      (xs.foldl (fun acc y => if ∃ z ∈ acc, f z = f y then acc else acc ++ [y]) [x]).length = 1 ↔
        ∀ y ∈ xs, f y = f x := by
  intro xs
  induction xs with
  | nil => simp
  | cons y ys ih =>
    simp only [List.foldl_cons]
    by_cases h : ∃ z ∈ [x], f z = f y
    · have hxy : f y = f x := by
        obtain ⟨z, hz, hfz⟩ := h
        simp at hz
        subst hz
        exact hfz.symm
      rw [if_pos h]
      rw [ih]
      constructor
      · intro hall z hz
        rcases List.mem_cons.mp hz with rfl | hz'
        · exact hxy
        · exact hall z hz'
      · intro hall z hz
        exact hall z (List.mem_cons_of_mem _ hz)
    · have hxy : ¬ f y = f x := fun hc => h ⟨x, by simp, hc.symm⟩
      rw [if_neg h]
      constructor
      · intro hlen
        have := uniqBy_go_length_mono f ys ([x] ++ [y])
        simp only [List.length_append, List.length_singleton] at this
        omega
      · intro hall
        exact absurd (hall y (by simp)) hxy

theorem uniqBy_length_one_iff {α β : Type} [DecidableEq β] (f : α → β) (l : List α) :
    (uniqBy f l).length = 1 ↔ l ≠ [] ∧ ∀ y ∈ l, ∀ z ∈ l, f y = f z := by
  cases l with
  | nil => simp [uniqBy]
  | cons x xs =>
    rw [uniqBy_cons, uniqBy_singleton_iff]
    constructor
    · intro hall
      refine ⟨by simp, ?_⟩
      intro y hy z hz
      have hy' : f y = f x := by
        rcases List.mem_cons.mp hy with rfl | hy'
        · rfl
        · exact hall y hy'
      have hz' : f z = f x := by
        rcases List.mem_cons.mp hz with rfl | hz'
        · rfl
        · exact hall z hz'
      rw [hy', hz']
    · intro ⟨_, hall⟩ y hy
      exact hall y (List.mem_cons_of_mem _ hy) x (by simp)

theorem foldl_add_amount (l : List Utxo) :
    l.foldl (fun prev curr => prev + curr.amount) 0 = (l.map (fun u => u.amount)).sum := by
  have hgen : ∀ (l : List Utxo) (a : Nat),
      l.foldl (fun prev curr => prev + curr.amount) a = a + (l.map (fun u => u.amount)).sum := by
    intro l
    induction l with
    | nil => intro a; simp
    | cons u us ih =>
      intro a
      simp only [List.foldl_cons, List.map_cons, List.sum_cons]
      rw [ih]
      ring
  simpa using hgen l 0

theorem decodeUtxoPos_encodeUtxoPos (i : UtxoInput)
    (ht : i.txindex ≤ 9999) (ho : i.oindex ≤ 3) :
    decodeUtxoPos (encodeUtxoPos i) = i := by
  obtain ⟨b, t, o⟩ := i
  simp only [encodeUtxoPos, decodeUtxoPos] at *
  simp only [UtxoInput.mk.injEq]
  refine ⟨?_, ?_, ?_⟩ <;> omega

/-- C3: `encodeDeposit` applied to the documented owner address, amount 333
and the native (all-zero) currency returns exactly the documented literal
byte string. -/
theorem encodeDeposit_fixture :
    encodeDeposit depositOwnerFixture 333 ethCurrency = depositExpectedBytes := by
  decide

/-- Validation of the codec model against the remaining in-src deposit
fixtures: the string amount `1000000000000000000`. -/
theorem encodeDeposit_fixture_1e18 :
    encodeDeposit
      [96, 197, 188, 45, 232, 10, 205, 165, 1, 108, 30, 129, 246, 22, 32, 173, 188, 115, 13, 210]
      1000000000000000000 ethCurrency =
    [248, 91, 1, 192, 246, 245, 1, 243, 148, 96, 197, 188, 45, 232, 10, 205, 165, 1, 108, 30, 129, 246, 22, 32, 173, 188, 115, 13, 210, 148, 0, 0, 0, 0, 0, 0, 0, 0, 0, 0, 0, 0, 0, 0, 0, 0, 0, 0, 0, 0, 136, 13, 224, 182, 179, 167, 100, 0, 0, 128, 160, 0, 0, 0, 0, 0, 0, 0, 0, 0, 0, 0, 0, 0, 0, 0, 0, 0, 0, 0, 0, 0, 0, 0, 0, 0, 0, 0, 0, 0, 0, 0, 0] := by
  decide

/-- Validation of the codec model against the in-src deposit fixture with the
string amount `3000000000000000000000` (beyond 64 bits). -/
theorem encodeDeposit_fixture_3e21 :
    encodeDeposit
      [96, 197, 188, 45, 232, 10, 205, 165, 1, 108, 30, 129, 246, 22, 32, 173, 188, 115, 13, 210]
      3000000000000000000000 ethCurrency =
    [248, 92, 1, 192, 247, 246, 1, 244, 148, 96, 197, 188, 45, 232, 10, 205, 165, 1, 108, 30, 129, 246, 22, 32, 173, 188, 115, 13, 210, 148, 0, 0, 0, 0, 0, 0, 0, 0, 0, 0, 0, 0, 0, 0, 0, 0, 0, 0, 0, 0, 137, 162, 161, 93, 9, 81, 155, 224, 0, 0, 128, 160, 0, 0, 0, 0, 0, 0, 0, 0, 0, 0, 0, 0, 0, 0, 0, 0, 0, 0, 0, 0, 0, 0, 0, 0, 0, 0, 0, 0, 0, 0, 0, 0] := by
  decide

/-- Validation of the codec model against the in-src no-output encode
fixture. -/
theorem encodeTx_fixture_no_outputs :
    encodeTx { txType := 1, inputs := [⟨19774001, 0, 0⟩], outputs := [],
               txData := 0, metadata := [] } =
    [230, 1, 225, 160, 0, 0, 0, 0, 0, 0, 0, 0, 0, 0, 0, 0, 0, 0, 0, 0, 0, 0, 0, 0, 0, 0, 0, 0, 0, 70, 64, 89, 97, 100, 170, 0, 192, 128, 128] := by
  decide

/-- C4: packing a UTXO position and unpacking it returns the original triple
for every `blknum < 2^48`, `txindex ≤ 9999`, `oindex ≤ 3`; the model's `Nat`
arithmetic is exact (arbitrary precision). -/
theorem utxoPos_roundtrip (blknum txindex oindex : Nat)
    (hb : blknum < 2 ^ 48) (ht : txindex ≤ 9999) (ho : oindex ≤ 3) :
    decodeUtxoPos (encodeUtxoPos ⟨blknum, txindex, oindex⟩) = ⟨blknum, txindex, oindex⟩ :=
  decodeUtxoPos_encodeUtxoPos ⟨blknum, txindex, oindex⟩ ht ho

/-- Witness for C4 at the largest in-range position. -/
theorem utxoPos_roundtrip_witness :
    decodeUtxoPos (encodeUtxoPos ⟨281474976710655, 9999, 3⟩) = ⟨281474976710655, 9999, 3⟩ :=
  utxoPos_roundtrip 281474976710655 9999 3 (by decide) (by decide) (by decide)

/-- C5: the exit-priority decoder takes bits [0,42) of the 256-bit big-endian
rendering as `exitableAt` and bits [96,256) as `exitId` (equivalently,
`p / 2^214` and `p % 2^160`), and decodes the value whose bits encode
`1600000000` and `42` to exactly those components. -/
theorem exitPriority_decode (p : Nat) (hp : p < 2 ^ 256) :
    decodeExitPriority p = ⟨p, p / 2 ^ 214, p % 2 ^ 160⟩ ∧
    decodeExitPriority (1600000000 * 2 ^ 214 + 42) =
      ⟨1600000000 * 2 ^ 214 + 42, 1600000000, 42⟩ := by
  refine ⟨decodeExitPriority_eq p hp, ?_⟩
  rw [decodeExitPriority_eq (1600000000 * 2 ^ 214 + 42) (by norm_num)]
  have h1 : (1600000000 * 2 ^ 214 + 42) / 2 ^ 214 = 1600000000 := by decide
  have h2 : (1600000000 * 2 ^ 214 + 42) % 2 ^ 160 = 42 := by decide
  rw [h1, h2]

/-- Witness for C5 at the documented concrete priority value. -/
theorem exitPriority_decode_witness :
    decodeExitPriority (1600000000 * 2 ^ 214 + 42) =
      ⟨1600000000 * 2 ^ 214 + 42, (1600000000 * 2 ^ 214 + 42) / 2 ^ 214,
       (1600000000 * 2 ^ 214 + 42) % 2 ^ 160⟩ ∧
    decodeExitPriority (1600000000 * 2 ^ 214 + 42) =
      ⟨1600000000 * 2 ^ 214 + 42, 1600000000, 42⟩ :=
  exitPriority_decode (1600000000 * 2 ^ 214 + 42) (by decide)

/-- C6: `getExitQueue` returns an empty list on an empty raw heap array; on a
non-empty one it discards exactly the index-0 sentinel, decodes every
remaining entry, and keeps heap storage order (entry `i` of the result is
the decode of raw entry `i+1`); a sentinel followed by one priority yields
exactly one decoded entry. -/
theorem getExitQueue_spec (raw : List Nat) (hne : raw ≠ []) :
    getExitQueue ([] : List Nat) = [] ∧
    (getExitQueue raw).length = raw.length - 1 ∧
    (∀ i : Nat, (getExitQueue raw)[i]? = (raw[i + 1]?).map decodeExitPriority) ∧
    (∀ p : Nat, getExitQueue [0, p] = [decodeExitPriority p]) := by
  have hlen : raw.length ≠ 0 := fun h => hne (List.eq_nil_of_length_eq_zero h)
  refine ⟨by simp [getExitQueue], ?_, ?_, ?_⟩
  · simp only [getExitQueue, if_pos hlen]
    simp
  · intro i
    simp only [getExitQueue, if_pos hlen]
    rw [List.getElem?_map, List.getElem?_drop, Nat.add_comm 1 i]
  · intro p
    simp [getExitQueue]

/-- Witness for C6 at the two-element heap array (sentinel plus one
priority). -/
theorem getExitQueue_spec_witness :
    getExitQueue ([] : List Nat) = [] ∧
    (getExitQueue [0, 5]).length = ([0, 5] : List Nat).length - 1 ∧
    (∀ i : Nat, (getExitQueue [0, 5])[i]? = (([0, 5] : List Nat)[i + 1]?).map decodeExitPriority) ∧
    (∀ p : Nat, getExitQueue [0, p] = [decodeExitPriority p]) :=
  getExitQueue_spec [0, 5] (by decide)

/-- C7 counterexample: at `submissionBlockNumber = 1000`,
`exitRequestBlock.timestamp = 100`, `submissionBlock.timestamp = 0`,
`minExitPeriod = 10`, the code returns 115 while the claim's formula
`max(exitRequestBlock.timestamp, submissionBlock.timestamp + 2*minExitPeriod) + 5`
gives 105. -/
theorem getExitTime_formula_counterexample :
    getExitTimeScheduled 1000 100 0 10 = 115 ∧
    getExitTimeSpecClaimed 1000 100 0 10 = 105 ∧
    getExitTimeScheduled 1000 100 0 10 ≠ getExitTimeSpecClaimed 1000 100 0 10 := by
  refine ⟨by decide, by decide, by decide⟩

/-- C7 (amended): the code computes
`max(exitRequestBlock.timestamp, submissionBlock.timestamp) + minExitPeriod`
when `submissionBlockNumber` is not a multiple of 1000, and
`max(exitRequestBlock.timestamp + minExitPeriod, submissionBlock.timestamp + minExitPeriod*2)`
otherwise, plus the fixed 5-second buffer in both cases. -/
theorem getExitTime_formula (bn e s m : Nat) :
    getExitTimeScheduled bn e s m =
      (if bn % 1000 ≠ 0 then max e s + m else max (e + m) (s + m * 2)) + 5 := by
  simp only [getExitTimeScheduled]
  by_cases h : bn % 1000 ≠ 0
  · simp only [if_pos h]
    omega
  · simp only [if_neg h]

/-- C8: with the exit-request block unavailable and the default budget of 10
retries, the caller's invocation fails at once by dereferencing the missing
block (a type error, not the named error) even though it schedules a retry;
the cascade of detached timer invocations has 11 links, only its last throws
the named "Could not get exit request block data" error, and no link in the
cascade produces an `ok` result from the missing block. -/
theorem getExitTime_retry_bug :
    getExitTimeInvocation none 10 123 1 ⟨0⟩ 60 = (.nullDeref, true) ∧
    getExitTimeInvocation none 0 123 1 ⟨0⟩ 60 = (.blockNotFound 123, false) ∧
    (retryCascade 123 1 ⟨0⟩ 60 10).length = 11 ∧
    (retryCascade 123 1 ⟨0⟩ 60 10).headD (.nullDeref, false) = (.nullDeref, true) ∧
    (retryCascade 123 1 ⟨0⟩ 60 10).getLast? = some (.blockNotFound 123, false) ∧
    (∀ out ∈ retryCascade 123 1 ⟨0⟩ 60 10,
      out.1 = ExitTimeOutcome.nullDeref ∨ out.1 = ExitTimeOutcome.blockNotFound 123) := by
  decide

/-- C9 counterexample: two callers racing the first resolution (A checks, B
checks, A resumes, B resumes) perform two on-chain lookups — the
check-then-act guard of `getPaymentExitGame` is not single-flight. -/
theorem getPaymentExitGame_race_counterexample :
    (runTwoCalls 7 [true, false, true, false]).2.2.2 = 2 ∧
    ¬ (runTwoCalls 7 [true, false, true, false]).2.2.2 ≤ 1 := by
  decide

/-- C9 (amended): the handle is memoized per client instance — once resolved,
every later call performs no further on-chain lookup and returns the stored
value, and a call that starts after the first call completed leaves the
lookup count at one with both callers observing the same value — but two
callers racing the first resolution each trigger the on-chain lookup. -/
theorem getPaymentExitGame_memoized (v w lookups : Nat) :
    stepGetPaymentExitGame ⟨some v⟩ ⟨0, none⟩ w lookups = (⟨some v⟩, ⟨2, some v⟩, lookups) ∧
    (runTwoCalls v [true, true, false]).2.2.2 = 1 ∧
    (runTwoCalls v [true, true, false]).2.1.result = some v ∧
    (runTwoCalls v [true, true, false]).2.2.1.result = some v ∧
    (runTwoCalls v [true, false, true, false]).2.2.2 = 2 :=
  ⟨rfl, rfl, rfl, rfl, rfl⟩

theorem uniqBy_not_one {α β : Type} [DecidableEq β] (f : α → β) (l : List α)
    (hne : l ≠ []) (h : ¬ (uniqBy f l).length = 1) :
    ∃ u ∈ l, ∃ v ∈ l, f u ≠ f v := by
  rw [uniqBy_length_one_iff] at h
  push_neg at h
  obtain ⟨u, hu, v, hv, hne'⟩ := h hne
  exact ⟨u, hu, v, hv, hne'⟩

/-- C10: `mergeUtxosToOutput` errors exactly when given fewer than 2 UTXOs,
more than 4, more than one currency, or more than one owner; on 2–4 UTXOs
sharing one currency and one owner it returns the type-1 output guarded by
the shared owner, in the shared currency, whose amount is the exact sum of
the UTXO amounts. -/
theorem mergeUtxosToOutput_spec (utxos : List Utxo) :
    ((∃ e, mergeUtxosToOutput utxos = .error e) ↔
      utxos.length < 2 ∨ 4 < utxos.length ∨
      (∃ u ∈ utxos, ∃ v ∈ utxos, u.currency ≠ v.currency) ∨
      (∃ u ∈ utxos, ∃ v ∈ utxos, u.owner ≠ v.owner)) ∧
    (∀ u0 rest, utxos = u0 :: rest → 2 ≤ utxos.length → utxos.length ≤ 4 →
      (∀ v ∈ utxos, v.currency = u0.currency) →
      (∀ v ∈ utxos, v.owner = u0.owner) →
      mergeUtxosToOutput utxos =
        .ok { outputType := 1, outputGuard := u0.owner, currency := u0.currency,
              amount := (utxos.map (fun u => u.amount)).sum }) := by
  constructor
  · unfold mergeUtxosToOutput
    by_cases h1 : utxos.length < 2
    · simp only [if_pos h1]
      exact ⟨fun _ => Or.inl h1, fun _ => ⟨_, rfl⟩⟩
    · simp only [if_neg h1]
      by_cases h2 : utxos.length > 4
      · simp only [if_pos h2]
        exact ⟨fun _ => Or.inr (Or.inl h2), fun _ => ⟨_, rfl⟩⟩
      · simp only [if_neg h2]
        have hne : utxos ≠ [] := by
          intro hc
          rw [hc] at h1
          simp at h1
        by_cases h3 : (uniqBy (fun u => u.currency) utxos).length = 1
        · rw [if_neg (not_not_intro h3)]
          by_cases h4 : (uniqBy (fun u => u.owner) utxos).length = 1
          · rw [if_neg (not_not_intro h4)]
            constructor
            · rintro ⟨e, he⟩
              exact absurd he (by simp)
            · rintro (hc | hc | ⟨u, hu, v, hv, hne'⟩ | ⟨u, hu, v, hv, hne'⟩)
              · omega
              · omega
              · exact absurd (((uniqBy_length_one_iff _ utxos).mp h3).2 u hu v hv) hne'
              · exact absurd (((uniqBy_length_one_iff _ utxos).mp h4).2 u hu v hv) hne'
          · rw [if_pos h4]
            constructor
            · intro _
              exact Or.inr (Or.inr (Or.inr (uniqBy_not_one _ utxos hne h4)))
            · intro _
              exact ⟨_, rfl⟩
        · rw [if_pos h3]
          constructor
          · intro _
            exact Or.inr (Or.inr (Or.inl (uniqBy_not_one _ utxos hne h3)))
          · intro _
            exact ⟨_, rfl⟩
  · intro u0 rest hcons hge hle hcur hown
    subst hcons
    unfold mergeUtxosToOutput
    rw [if_neg (by omega), if_neg (by omega)]
    have hcur1 : (uniqBy (fun u => u.currency) (u0 :: rest)).length = 1 := by
      rw [uniqBy_length_one_iff]
      refine ⟨by simp, fun y hy z hz => ?_⟩
      rw [hcur y hy, hcur z hz]
    have hown1 : (uniqBy (fun u => u.owner) (u0 :: rest)).length = 1 := by
      rw [uniqBy_length_one_iff]
      refine ⟨by simp, fun y hy z hz => ?_⟩
      rw [hown y hy, hown z hz]
    rw [if_neg (not_not_intro hcur1), if_neg (not_not_intro hown1)]
    rw [foldl_add_amount]
    simp

/-- Witness for C10: merging two UTXOs of one owner and one currency. -/
theorem mergeUtxosToOutput_spec_witness :
    mergeUtxosToOutput [⟨"alice", "eth", 3⟩, ⟨"alice", "eth", 4⟩] =
      .ok { outputType := 1, outputGuard := "alice", currency := "eth", amount := 7 } :=
  (mergeUtxosToOutput_spec [⟨"alice", "eth", 3⟩, ⟨"alice", "eth", 4⟩]).2
    ⟨"alice", "eth", 3⟩ [⟨"alice", "eth", 4⟩] rfl (by decide) (by decide)
    (by decide) (by decide)

/-- C1 counterexample: the repository's own test (validators/index.js lines
140–163) supplies the amount as the native number literal
`500000000000000123` and asserts `t1ExpectedBytes` — which are the bytes of
the value `500000000000000100` (the shortest decimal rendering of the
nearest double), not of `500000000000000123`.  A decimal-string or
arbitrary-precision amount of the same written value therefore encodes to
different bytes than the native-number amount. -/
theorem encode_native_amount_counterexample :
    encodeTx (t1TestTx 500000000000000100) = t1ExpectedBytes ∧
    encodeTx (t1TestTx 500000000000000123) ≠ t1ExpectedBytes := by
  refine ⟨by decide, by decide⟩

/-- C1 (amended): for every structurally well-formed transaction with 0–4
inputs and 0–4 outputs, `decodeTxBytes (encodeTx tx)` reproduces `tx` — the
type, inputs, outputs (amounts as decimal strings of the same value) and
`txData` exactly, with an omitted metadata coming back as the 20-byte zero
string — and supplying every amount as an exactly-parsed decimal string
encodes to the same bytes as supplying the value itself.  (Native-number
amounts agree only within the float-exact range, per the counterexample.) -/
theorem tx_codec_roundtrip (tx : Transaction) (hwf : WellFormedTx tx)
    (hin : ∀ i ∈ tx.inputs, i.txindex ≤ 9999 ∧ i.oindex ≤ 3) :
    decodeTxBytes (encodeTx tx) =
      some { txType := tx.txType, inputs := tx.inputs,
             outputs := tx.outputs.map decodedOutput,
             txData := tx.txData, metadata := parsedFieldString tx.metadata } ∧
    (∀ outs : List TxOutput,
      encodeTx { tx with
          outputs := outs.map (fun o => { o with amount := digitsToNat 10 (natToDigits 10 o.amount) }) } =
        encodeTx { tx with outputs := outs }) := by
  constructor
  · rw [decode_encode_eq tx hwf]
    have hinp : tx.inputs.map (fun i => decodeUtxoPos (encodeUtxoPos i)) = tx.inputs := by
      rw [List.map_congr_left
        (fun i hi => decodeUtxoPos_encodeUtxoPos i (hin i hi).1 (hin i hi).2)]
      exact List.map_id tx.inputs
    simp only [decodedOf, hinp]
    rfl
  · intro outs
    have hmap : outs.map
        (fun o => ({ o with amount := digitsToNat 10 (natToDigits 10 o.amount) } : TxOutput)) = outs := by
      apply List.map_id''
      intro o
      rw [digitsToNat_natToDigits 10 (by decide) o.amount]
    rw [hmap]

/-- Witness for C1 at the repository's round-trip test transaction (amount
supplied by value 123). -/
theorem tx_codec_roundtrip_witness :
    decodeTxBytes (encodeTx (t1TestTx 123)) =
      some { txType := (t1TestTx 123).txType, inputs := (t1TestTx 123).inputs,
             outputs := (t1TestTx 123).outputs.map decodedOutput,
             txData := (t1TestTx 123).txData,
             metadata := parsedFieldString (t1TestTx 123).metadata } ∧
    (∀ outs : List TxOutput,
      encodeTx { t1TestTx 123 with
          outputs := outs.map (fun o => { o with amount := digitsToNat 10 (natToDigits 10 o.amount) }) } =
        encodeTx { t1TestTx 123 with outputs := outs }) :=
  tx_codec_roundtrip (t1TestTx 123) (by decide) (by decide)

/-- C2 counterexample: decoding the encoding of the repository's round-trip
test transaction (metadata omitted) returns the 20-byte zero string as
metadata — as the repository's own test asserts — not a 32-byte value. -/
theorem decode_metadata_counterexample :
    (decodeTxBytes (encodeTx (t1TestTx 123))).map (fun d => d.metadata) =
      some (List.replicate 20 0) ∧
    ¬ (decodeTxBytes (encodeTx (t1TestTx 123))).map (fun d => d.metadata.length) = some 32 := by
  refine ⟨by decide, by decide⟩

/-- C2 (amended): for every structurally well-formed transaction, decoding
its encoding returns each amount as the decimal string of its exact value
(no precision loss at any magnitude), and returns the metadata bytes as
encoded — the 20-byte zero string when the original transaction omitted
metadata (an explicit 32-byte metadata, such as `encodeDeposit`'s null
metadata, comes back as the 32-byte value). -/
theorem decode_amount_string_metadata (tx : Transaction) (hwf : WellFormedTx tx) :
    (decodeTxBytes (encodeTx tx)).map (fun d => d.outputs.map (fun o => o.amount)) =
      some (tx.outputs.map (fun o => Nat.repr o.amount)) ∧
    (decodeTxBytes (encodeTx tx)).map (fun d => d.metadata) =
      some (if tx.metadata = [] then List.replicate 20 0 else tx.metadata) := by
  rw [decode_encode_eq tx hwf]
  constructor
  · simp [decodedOf]
  · simp [decodedOf, parsedFieldString]

/-- Witness for C2 at a deposit-style transaction with explicit 32-byte
metadata and at the metadata-omitting test transaction. -/
theorem decode_amount_string_metadata_witness :
    (decodeTxBytes (encodeTx (t1TestTx 123))).map (fun d => d.outputs.map (fun o => o.amount)) =
      some ((t1TestTx 123).outputs.map (fun o => Nat.repr o.amount)) ∧
    (decodeTxBytes (encodeTx (t1TestTx 123))).map (fun d => d.metadata) =
      some (if (t1TestTx 123).metadata = [] then List.replicate 20 0 else (t1TestTx 123).metadata) :=
  decode_amount_string_metadata (t1TestTx 123) (by decide)

end OmgJs
